import Mathlib

/-!
# Ironhack Payments cohort-metrics pipeline — shallow embedding

This file embeds the core of the cohort-metrics pipeline of the
`project-1-ironhack-payments` repository
(`scripts/clean/1_data_cleaning_ironhack_payments.py`,
`scripts/clean/2_eda_ironhack_payments.py`,
`scripts/clean/3_cohort_analysis_metrics.py`) and proves properties of it.

Modelling conventions:
* A table is a `List` of records; nullable columns are `Option` fields.
* Timestamps are `Nat`s encoded as `yearMonth * 100 + daySlot` (every
  calendar month gets 100 slots, so the order on `Nat` is the timestamp
  order and `monthOf t = t / 100` is pandas `to_period(M)`).
  A calendar month (the source string 2020-01) is the `Nat` `202001`;
  the lexicographic order on the source YYYY-MM strings coincides
  with the `Nat` order on this encoding.
* Monetary amounts are `ℚ`; `round(q, k)` on floats is modelled as
  rounding a rational to `k` decimal places.  Every statement compares
  two values rounded by the same function, so the tie-breaking rule of
  the float rounding is not load-bearing.
* pandas `groupby` drops rows whose group key is null; a left merge
  leaves unmatched left rows with null right fields and never matches a
  null key.  Both behaviours are reproduced explicitly below.
-/

/-- `to_period(M)`: the calendar month of a timestamp. -/
def monthOf (t : Nat) : Nat := t / 100

/-- Round a rational to `k` decimal places (models `.round(k)`). -/
def roundTo (k : Nat) (q : ℚ) : ℚ := (round (q * (10 ^ k : ℚ)) : ℚ) / (10 ^ k : ℚ)

/-- `.round(3)` used by the retention matrices. -/
def round3 (q : ℚ) : ℚ := roundTo 3 q

/-- `.round(2)` used by ARPU and CLV. -/
def round2 (q : ℚ) : ℚ := roundTo 2 q

/-- One row of the cash-request table, after datetime coercion
(`created_at` is null when unparseable, `pd.to_datetime` with coercion of invalid values to null)
and categorical cleaning.  Fields not used by any verified computation are
omitted. -/
structure CashRow where
  id : Nat
  user_id : Option Nat
  deleted_account_id : Option Nat
  amount : Option ℚ
  created_at : Option Nat
  recovery_status : Option String
  deriving Repr, DecidableEq

/-- One row of the fee table after datetime coercion and categorical
cleaning (`status` was renamed to `fee_status` in the EDA script). -/
structure FeeRow where
  fee_id : Nat
  cash_request_id : Option Nat
  total_amount : Option ℚ
  fee_status : Option String
  deriving Repr, DecidableEq

/-! ## Record Cleaner / Identity Unifier
(`1_data_cleaning_ironhack_payments.py`) -/

/-- In[19]: nullify `deleted_account_id` on rows where both identity
columns are present, keeping `user_id`. -/
def resolveConflict (r : CashRow) : CashRow :=
  if r.user_id.isSome ∧ r.deleted_account_id.isSome then
    { r with deleted_account_id := none }
  else r

/-- The identity-conflict correction applied to the whole table. -/
def cleanCash (cash : List CashRow) : List CashRow := cash.map resolveConflict

/-- In[21]: `final_user_id = user_id.fillna(deleted_account_id)`. -/
def finalOf (r : CashRow) : Option Nat :=
  match r.user_id with
  | some u => some u
  | none => r.deleted_account_id

/-- In[21]: count of rows still missing a `final_user_id`. -/
def missingFinalIds (cash : List CashRow) : Nat :=
  (cash.filter (fun r => (finalOf r).isNone)).length

/-- In[23]: fee rows whose `cash_request_id` is not among the cash-request
ids (the isin-based check on the cash_request_id column; a null key is
never a member of the id set, so null-key rows are also reported). -/
def unmatchedFees (cash : List CashRow) (fees : List FeeRow) : List FeeRow :=
  fees.filter (fun f =>
    match f.cash_request_id with
    | none => true
    | some cid => decide (cid ∉ cash.map (·.id)))

/-- In[24]: the cleaned fee table keeps exactly the rows with a non-null
`cash_request_id`. -/
def cleanFees (fees : List FeeRow) : List FeeRow :=
  fees.filter (fun f => f.cash_request_id.isSome)

/-! ## Linker (`2_eda_ironhack_payments.py`, In[16]–In[17]) -/

/-- One row of `merged_df` / `merged_cash_fee_cohort`: the cash-request
columns (already renamed `id → cash_request_id`, `created_at →
cash_created_at`) plus the fee columns, null when the request has no fee. -/
structure MergedRow where
  cash_request_id : Nat
  final_user_id : Option Nat
  cash_created_at : Option Nat
  recovery_status : Option String
  fee_id : Option Nat
  total_amount : Option ℚ
  fee_status : Option String
  cohort : Option Nat
  deriving Repr, DecidableEq

/-- The merged row produced for cash row `c` and (optional) fee row `f`;
the `cohort` column does not exist yet at the Linker stage. -/
def mkMerged (c : CashRow) (f : Option FeeRow) : MergedRow :=
  { cash_request_id := c.id
    final_user_id := finalOf c
    cash_created_at := c.created_at
    recovery_status := c.recovery_status
    fee_id := f.map (·.fee_id)
    total_amount := f.bind (·.total_amount)
    fee_status := f.bind (·.fee_status)
    cohort := none }

/-- The fee rows matching one cash request. -/
def feeHits (c : CashRow) (fees : List FeeRow) : List FeeRow :=
  fees.filter (fun f => f.cash_request_id = some c.id)

/-- The merged rows produced for one cash request: one null-fee row when
no fee matches, otherwise one row per matching fee. -/
def joinRow (c : CashRow) (fees : List FeeRow) : List MergedRow :=
  if (feeHits c fees).isEmpty then [mkMerged c none]
  else (feeHits c fees).map (fun f => mkMerged c (some f))

/-- In[17]: the left merge of the cash table with the fee table on cash_request_id —
every cash request is kept; a request with no matching fee yields one row
with null fee fields, a request with `N ≥ 1` matching fees yields `N`
rows. -/
def leftJoin (cash : List CashRow) (fees : List FeeRow) : List MergedRow :=
  cash.flatMap (fun c => joinRow c fees)

/-- Number of distinct values in a list (pandas `nunique` on a non-null
column). -/
def nuniqueNat (l : List Nat) : Nat := l.dedup.length

/-! ## Theorems: Record Cleaner and Identity Unifier -/

/-- C2: for every cash-request row, `final_user_id` equals `user_id`
when `user_id` is non-null and `deleted_account_id` otherwise; and on a
row where both identity columns are non-null the conflict is resolved by
keeping `user_id` and nullifying `deleted_account_id` before
`final_user_id` is computed. -/
theorem final_user_id_unification (r : CashRow) :
    (finalOf (resolveConflict r) =
      if r.user_id.isSome then r.user_id else r.deleted_account_id) ∧
    (∀ a b : Nat, r.user_id = some a → r.deleted_account_id = some b →
      (resolveConflict r).deleted_account_id = none ∧
      (resolveConflict r).user_id = some a ∧
      finalOf (resolveConflict r) = some a) := by
  constructor
  · unfold resolveConflict finalOf
    rcases hu : r.user_id with _ | u <;> rcases hd : r.deleted_account_id with _ | d <;>
      simp [hu, hd]
  · intro a b ha hb
    unfold resolveConflict finalOf
    simp [ha, hb]

/-- Witness for `final_user_id_unification` at a concrete conflicting row:
`user_id = 42`, `deleted_account_id = 77` resolves to `final_user_id = 42`
with `deleted_account_id` nulled. -/
theorem final_user_id_unification_witness :
    (resolveConflict ⟨280, some 42, some 77, some 100, some 201912, none⟩).deleted_account_id
        = none ∧
      finalOf (resolveConflict ⟨280, some 42, some 77, some 100, some 201912, none⟩)
        = some 42 :=
  ⟨((final_user_id_unification ⟨280, some 42, some 77, some 100, some 201912, none⟩).2
      42 77 rfl rfl).1,
   ((final_user_id_unification ⟨280, some 42, some 77, some 100, some 201912, none⟩).2
      42 77 rfl rfl).2.2⟩

/-! ## Theorems: Linker -/

lemma mem_joinRow (c : CashRow) (fees : List FeeRow) {m : MergedRow}
    (hm : m ∈ joinRow c fees) :
    m.cash_request_id = c.id ∧ m.final_user_id = finalOf c ∧
      m.cash_created_at = c.created_at ∧ m.cohort = none := by
  unfold joinRow at hm
  split at hm
  · simp only [List.mem_singleton] at hm
    subst hm; exact ⟨rfl, rfl, rfl, rfl⟩
  · simp only [List.mem_map] at hm
    obtain ⟨f, -, hf⟩ := hm
    subst hf; exact ⟨rfl, rfl, rfl, rfl⟩

lemma joinRow_ne_nil (c : CashRow) (fees : List FeeRow) : joinRow c fees ≠ [] := by
  unfold joinRow
  split
  · simp
  · rename_i hne
    intro hnil
    rw [List.map_eq_nil_iff] at hnil
    exact hne (by simp [hnil])

lemma mem_leftJoin_of_mem_cash {cash : List CashRow} (fees : List FeeRow)
    {c : CashRow} (hc : c ∈ cash) :
    ∃ m ∈ leftJoin cash fees, m.cash_request_id = c.id ∧
      m.final_user_id = finalOf c ∧ m.cash_created_at = c.created_at := by
  obtain ⟨m, hm⟩ := List.exists_mem_of_ne_nil _ (joinRow_ne_nil c fees)
  obtain ⟨h1, h2, h3, -⟩ := mem_joinRow c fees hm
  exact ⟨m, List.mem_flatMap.mpr ⟨c, hc, hm⟩, h1, h2, h3⟩

lemma cash_of_mem_leftJoin {cash : List CashRow} {fees : List FeeRow}
    {m : MergedRow} (hm : m ∈ leftJoin cash fees) :
    ∃ c ∈ cash, m.cash_request_id = c.id ∧ m.final_user_id = finalOf c ∧
      m.cash_created_at = c.created_at ∧ m.cohort = none := by
  unfold leftJoin at hm
  simp only [List.mem_flatMap] at hm
  obtain ⟨c, hc, hmem⟩ := hm
  exact ⟨c, hc, mem_joinRow c fees hmem⟩

lemma leftJoin_length_ge (cash : List CashRow) (fees : List FeeRow) :
    cash.length ≤ (leftJoin cash fees).length := by
  induction cash with
  | nil => simp [leftJoin]
  | cons c cs ih =>
    have h1 : 1 ≤ (joinRow c fees).length := List.length_pos.mpr (joinRow_ne_nil c fees)
    have : leftJoin (c :: cs) fees = joinRow c fees ++ leftJoin cs fees := by
      unfold leftJoin; simp
    rw [this, List.length_append, List.length_cons]
    omega

lemma leftJoin_ids_mem_iff (cash : List CashRow) (fees : List FeeRow) (x : Nat) :
    x ∈ (leftJoin cash fees).map (·.cash_request_id) ↔ x ∈ cash.map (·.id) := by
  constructor
  · intro hx
    simp only [List.mem_map] at hx ⊢
    obtain ⟨m, hm, hid⟩ := hx
    obtain ⟨c, hc, hcid, -⟩ := cash_of_mem_leftJoin hm
    exact ⟨c, hc, by rw [← hid, hcid]⟩
  · intro hx
    simp only [List.mem_map] at hx ⊢
    obtain ⟨c, hc, hid⟩ := hx
    obtain ⟨m, hm, hcid, -⟩ := mem_leftJoin_of_mem_cash fees hc
    exact ⟨m, hm, by rw [hcid, hid]⟩

/-- C6: the Linker left join preserves every cash request: the
number of distinct request ids in the joined result equals the number of
distinct request ids in the cash-request input, and the joined result has
at least as many rows as the cash-request input. -/
theorem leftJoin_preserves_requests (cash : List CashRow) (fees : List FeeRow) :
    nuniqueNat ((leftJoin cash fees).map (·.cash_request_id)) =
      nuniqueNat (cash.map (·.id)) ∧
    cash.length ≤ (leftJoin cash fees).length := by
  refine ⟨?_, leftJoin_length_ge cash fees⟩
  unfold nuniqueNat
  rw [← List.card_toFinset, ← List.card_toFinset]
  congr 1
  ext x
  simp only [List.mem_toFinset]
  exact leftJoin_ids_mem_iff cash fees x

/-! ## Cohort Assigner
(`2_eda_ironhack_payments.py` In[20] and `3_cohort_analysis_metrics.py`
In[8]–In[9]) -/

/-- The distinct non-null final user ids — the group keys of the
per-user groupby (pandas drops the rows whose group key is null). -/
def usersOf (cash : List CashRow) : List Nat := (cash.filterMap finalOf).dedup

/-- The non-null `created_at` values of the rows of one user (the
per-group aggregation `min` skips null values). -/
def userCreated (cash : List CashRow) (u : Nat) : List Nat :=
  (cash.filter (fun r => finalOf r = some u)).filterMap (·.created_at)

/-- `first_request_date`: the minimum `created_at` over the rows of one
user; null when the user has no parseable timestamp at all. -/
def firstRequestDate (cash : List CashRow) (u : Nat) : Option Nat :=
  (userCreated cash u).min?

/-- `cohort_year_month`: the calendar month of the first request of the
user.  (When `first_request_date` is null the source stringifies the
cohort label to the text NaT; no verified statement depends on that
label, so it is collapsed to `none` here.) -/
def userCohort (cash : List CashRow) (u : Nat) : Option Nat :=
  (firstRequestDate cash u).map monthOf

/-- The `user_first_request` table: one row per distinct user, carrying
the cohort label of the user. -/
def userFirstRequest (cash : List CashRow) : List (Nat × Option Nat) :=
  (usersOf cash).map (fun u => (u, userCohort cash u))

/-- Left-merge lookup of the cohort row for key `u` in
`user_first_request` (the first matching right row; the key column of
`user_first_request` is deduplicated, so at most one row matches). -/
def lookupCohort (cash : List CashRow) (u : Nat) : Option Nat :=
  match (userFirstRequest cash).find? (fun p => p.1 = u) with
  | some p => p.2
  | none => none

/-- In[8] of the metrics script: attach the cohort to one merged row by
the left merge on `final_user_id` (a null key never matches). -/
def assignCohort (cash : List CashRow) (m : MergedRow) : MergedRow :=
  { m with
      cohort :=
        match m.final_user_id with
        | none => none
        | some u => lookupCohort cash u }

/-- `merged_cash_fee_cohort`: the joined table with the cohort label
merged onto every row. -/
def cohortTagged (cash : List CashRow) (fees : List FeeRow) : List MergedRow :=
  (leftJoin cash fees).map (assignCohort cash)

lemma find?_map_pair {l : List Nat} {u : Nat} (g : Nat → Option Nat) (hu : u ∈ l) :
    (l.map (fun v => (v, g v))).find? (fun p => p.1 = u) = some (u, g u) := by
  induction l with
  | nil => cases hu
  | cons v vs ih =>
    by_cases hvu : v = u
    · subst hvu
      simp [List.find?_cons]
    · rcases List.mem_cons.mp hu with h | h
      · exact absurd h.symm hvu
      · rw [List.map_cons, List.find?_cons]
        have : (decide ((v, g v).1 = u)) = false := by
          simp [hvu]
        rw [this]
        exact ih h

lemma lookupCohort_eq {cash : List CashRow} {u : Nat} (hu : u ∈ usersOf cash) :
    lookupCohort cash u = userCohort cash u := by
  unfold lookupCohort userFirstRequest
  rw [find?_map_pair (userCohort cash) hu]

lemma final_mem_usersOf {cash : List CashRow} {c : CashRow} {u : Nat}
    (hc : c ∈ cash) (hf : finalOf c = some u) : u ∈ usersOf cash := by
  unfold usersOf
  rw [List.mem_dedup]
  exact List.mem_filterMap.mpr ⟨c, hc, hf⟩

lemma cohort_of_mem_tagged {cash : List CashRow} {fees : List FeeRow}
    {m : MergedRow} (hm : m ∈ cohortTagged cash fees) :
    ∃ c ∈ cash, m.cash_request_id = c.id ∧ m.final_user_id = finalOf c ∧
      m.cash_created_at = c.created_at ∧
      m.cohort = match finalOf c with
                 | none => none
                 | some u => userCohort cash u := by
  unfold cohortTagged at hm
  rw [List.mem_map] at hm
  obtain ⟨m0, hm0, hassign⟩ := hm
  obtain ⟨c, hc, h1, h2, h3, -⟩ := cash_of_mem_leftJoin hm0
  subst hassign
  refine ⟨c, hc, h1, h2, h3, ?_⟩
  show (match m0.final_user_id with
        | none => none
        | some u => lookupCohort cash u) = _
  rw [h2]
  rcases hf : finalOf c with _ | u
  · rfl
  · exact lookupCohort_eq (final_mem_usersOf hc hf)

/-- C5: for every user key, the assigned cohort key equals the calendar
month of the minimum `created_at` over the cash requests of that user,
and after the cohort join every user key is associated with exactly one
distinct cohort key across all of its transaction rows. -/
theorem cohort_key_is_month_of_first_request (cash : List CashRow) (fees : List FeeRow) :
    (∀ m ∈ cohortTagged cash fees, ∀ u : Nat, m.final_user_id = some u →
      m.cohort = (firstRequestDate cash u).map monthOf) ∧
    (∀ u : Nat, ∀ m₁ ∈ cohortTagged cash fees, ∀ m₂ ∈ cohortTagged cash fees,
      m₁.final_user_id = some u → m₂.final_user_id = some u →
      m₁.cohort = m₂.cohort) := by
  have key : ∀ m ∈ cohortTagged cash fees, ∀ u : Nat, m.final_user_id = some u →
      m.cohort = (firstRequestDate cash u).map monthOf := by
    intro m hm u hu
    obtain ⟨c, hc, -, h2, -, h4⟩ := cohort_of_mem_tagged hm
    rw [h4, ← h2, hu]
    rfl
  refine ⟨key, ?_⟩
  intro u m₁ h₁ m₂ h₂ hu₁ hu₂
  rw [key m₁ h₁ u hu₁, key m₂ h₂ u hu₂]

/-- Concrete example table from the spec test scenario: user 1 has
requests on 2020-01-15 and 2020-03-10, user 2 on 2020-02-01. -/
def exCash : List CashRow :=
  [⟨1, some 1, none, some 100, some 20200115, none⟩,
   ⟨2, some 1, none, some 50, some 20200310, some "completed"⟩,
   ⟨3, some 2, none, some 80, some 20200201, none⟩]

/-- Concrete example fee table: one accepted fee on request 1. -/
def exFees : List FeeRow :=
  [⟨10, some 1, some 5, some "accepted"⟩]

/-- Witness for `cohort_key_is_month_of_first_request`: in the example
data the row of request 2 (user 1, March 2020) carries cohort 2020-01,
the month of the first request of user 1. -/
theorem cohort_key_is_month_of_first_request_witness :
    ∃ m ∈ cohortTagged exCash exFees, m.cohort = some 202001 := by
  have hmem : (⟨2, some 1, some 20200310, some "completed", none, none, none, some 202001⟩ : MergedRow)
      ∈ cohortTagged exCash exFees := by decide
  refine ⟨_, hmem, ?_⟩
  have h := (cohort_key_is_month_of_first_request exCash exFees).1 _ hmem 1 rfl
  rw [h]
  decide

/-! ## Metrics Engine: usage matrix and retention matrices
(`3_cohort_analysis_metrics.py` In[12], In[13], In[15]) -/

/-- `year_month`: the activity month of a merged row, from its own
`cash_created_at` (null when the timestamp is null). -/
def yearMonth (m : MergedRow) : Option Nat := m.cash_created_at.map monthOf

/-- The rows that enter the usage groupby: both group keys
(`cohort_year_month`, `year_month`) non-null (pandas groupby drops rows
with a null key). -/
def usageParticipants (tagged : List MergedRow) : List MergedRow :=
  tagged.filter (fun m => m.cohort.isSome && (yearMonth m).isSome)

/-- A cell of `cohort_usage_matrix`: the number of merged rows with the
given cohort and the given activity month (absent cells of the pivot are
filled with 0). -/
def usageCount (tagged : List MergedRow) (c mo : Nat) : Nat :=
  (tagged.filter (fun m => m.cohort = some c ∧ yearMonth m = some mo)).length

/-- The row index of the pivoted usage matrix: the distinct cohorts of
the participating rows. -/
def usageRows (tagged : List MergedRow) : List Nat :=
  ((usageParticipants tagged).filterMap (·.cohort)).dedup

/-- The column index of the pivoted usage matrix: the distinct activity
months of the participating rows (the pivot orders them ascending). -/
def usageCols (tagged : List MergedRow) : List Nat :=
  ((usageParticipants tagged).filterMap yearMonth).dedup

/-- In[13]: the first strictly-positive entry of a cohort row of the
usage matrix.  The pivot orders its columns by ascending month and the
source takes the first positive entry of the row in that order, i.e. the
entry at the smallest month with a positive count. -/
def firstNonZeroValue (tagged : List MergedRow) (c : Nat) : Option Nat :=
  (((usageCols tagged).filter (fun mo => 0 < usageCount tagged c mo)).min?).map
    (usageCount tagged c)

/-- In[13]: a cell of the (unfiltered) `retention_matrix`: the row is
divided by its first non-zero value and rounded to 3 decimals; a row
with no positive entry is set to 0.0. -/
def retentionCell (tagged : List MergedRow) (c mo : Nat) : ℚ :=
  match firstNonZeroValue tagged c with
  | some v => if v ≠ 0 then round3 ((usageCount tagged c mo : ℚ) / (v : ℚ)) else 0
  | none => 0

/-- Specialization of `List.min?_eq_some_iff` to `Nat`. -/
lemma natMin?_eq_some {l : List Nat} {a : Nat} :
    l.min? = some a ↔ a ∈ l ∧ ∀ b ∈ l, a ≤ b :=
  List.min?_eq_some_iff (fun x => Nat.le_refl x) (fun x y => min_choice x y)
    (fun x y z => Nat.le_min)

lemma monthOf_mono {s t : Nat} (h : s ≤ t) : monthOf s ≤ monthOf t :=
  Nat.div_le_div_right h

/-- Every merged row with a non-null cohort label `c` belongs to a user
whose first-request month is `c`. -/
lemma user_of_cohort {cash : List CashRow} {fees : List FeeRow}
    {m : MergedRow} {c : Nat} (hm : m ∈ cohortTagged cash fees)
    (hc : m.cohort = some c) :
    ∃ u : Nat, m.final_user_id = some u ∧ userCohort cash u = some c ∧
      ∃ cr ∈ cash, finalOf cr = some u ∧ cr.created_at = m.cash_created_at := by
  obtain ⟨cr, hcr, -, h2, h3, h4⟩ := cohort_of_mem_tagged hm
  rcases hf : finalOf cr with _ | u
  · rw [h4, hf] at hc
    cases hc
  · rw [h4, hf] at hc
    exact ⟨u, by rw [h2, hf], hc, cr, hcr, hf, h3.symm⟩

/-- The timestamps of a user all lie at or after the first-request
timestamp, so their months lie at or after the cohort month. -/
lemma userCohort_le {cash : List CashRow} {u c : Nat}
    (hc : userCohort cash u = some c) {cr : CashRow} (hcr : cr ∈ cash)
    (hf : finalOf cr = some u) {t : Nat} (ht : cr.created_at = some t) :
    c ≤ monthOf t := by
  unfold userCohort at hc
  rcases hmin : firstRequestDate cash u with _ | t0
  · rw [hmin] at hc; cases hc
  · rw [hmin] at hc
    obtain ⟨-, hle⟩ := natMin?_eq_some.mp hmin
    have htmem : t ∈ userCreated cash u := by
      unfold userCreated
      exact List.mem_filterMap.mpr ⟨cr, List.mem_filter.mpr ⟨hcr, by simp [hf]⟩, ht⟩
    have hmono := monthOf_mono (hle t htmem)
    have hct0 : monthOf t0 = c := by simpa using hc
    omega

/-- The first-request row of a user with cohort `c` appears in the
cohort-tagged table with cohort `c` and activity month `c`. -/
lemma diag_row_exists {cash : List CashRow} {fees : List FeeRow} {u c : Nat}
    (hu : u ∈ usersOf cash) (hc : userCohort cash u = some c) :
    ∃ m ∈ cohortTagged cash fees, m.cohort = some c ∧ yearMonth m = some c := by
  unfold userCohort at hc
  rcases hmin : firstRequestDate cash u with _ | t0
  · rw [hmin] at hc; cases hc
  · rw [hmin] at hc
    obtain ⟨hmem, -⟩ := natMin?_eq_some.mp hmin
    unfold userCreated at hmem
    rw [List.mem_filterMap] at hmem
    obtain ⟨cr, hcrmem, hcrt⟩ := hmem
    rw [List.mem_filter] at hcrmem
    obtain ⟨hcr, hfb⟩ := hcrmem
    have hf : finalOf cr = some u := by simpa using hfb
    obtain ⟨m0, hm0, -, hfid, hcreated⟩ := mem_leftJoin_of_mem_cash fees hcr
    refine ⟨assignCohort cash m0, ?_, ?_, ?_⟩
    · unfold cohortTagged
      exact List.mem_map.mpr ⟨m0, hm0, rfl⟩
    · show (match m0.final_user_id with
            | none => none
            | some u => lookupCohort cash u) = some c
      rw [hfid, hf]
      show lookupCohort cash u = some c
      rw [lookupCohort_eq hu]
      unfold userCohort
      rw [hmin]
      exact hc
    · show (assignCohort cash m0).cash_created_at.map monthOf = some c
      have : (assignCohort cash m0).cash_created_at = m0.cash_created_at := rfl
      rw [this, hcreated, hcrt]
      exact hc

/-- A positive usage cell exhibits a witnessing row. -/
lemma exists_row_of_usage_pos {tagged : List MergedRow} {c mo : Nat}
    (h : 0 < usageCount tagged c mo) :
    ∃ m ∈ tagged, m.cohort = some c ∧ yearMonth m = some mo := by
  unfold usageCount at h
  rw [List.length_pos] at h
  obtain ⟨m, hm⟩ := List.exists_mem_of_ne_nil _ h
  rw [List.mem_filter] at hm
  obtain ⟨hmem, hprop⟩ := hm
  rw [decide_eq_true_eq] at hprop
  exact ⟨m, hmem, hprop.1, hprop.2⟩

/-- A row with both labels makes its usage cell positive and contributes
its cohort and month to the matrix indices. -/
lemma usage_pos_of_row {tagged : List MergedRow} {m : MergedRow} {c mo : Nat}
    (hm : m ∈ tagged) (hc : m.cohort = some c) (hmo : yearMonth m = some mo) :
    0 < usageCount tagged c mo ∧ c ∈ usageRows tagged ∧ mo ∈ usageCols tagged := by
  have hpart : m ∈ usageParticipants tagged := by
    unfold usageParticipants
    rw [List.mem_filter]
    exact ⟨hm, by simp [hc, hmo]⟩
  refine ⟨?_, ?_, ?_⟩
  · unfold usageCount
    rw [List.length_pos]
    intro hnil
    have : m ∈ tagged.filter (fun x => decide (x.cohort = some c ∧ yearMonth x = some mo)) :=
      List.mem_filter.mpr ⟨hm, by simp [hc, hmo]⟩
    rw [hnil] at this
    cases this
  · unfold usageRows
    rw [List.mem_dedup]
    exact List.mem_filterMap.mpr ⟨m, hpart, hc⟩
  · unfold usageCols
    rw [List.mem_dedup]
    exact List.mem_filterMap.mpr ⟨m, hpart, hmo⟩

/-- The diagonal property of the pipeline-produced usage matrix: every
cohort row has a positive entry at its own month, no positive entry at
an earlier month, and hence its first non-zero value is the diagonal
value. -/
lemma usage_diag (cash : List CashRow) (fees : List FeeRow) {c : Nat}
    (hc : c ∈ usageRows (cohortTagged cash fees)) :
    0 < usageCount (cohortTagged cash fees) c c ∧
    c ∈ usageCols (cohortTagged cash fees) ∧
    firstNonZeroValue (cohortTagged cash fees) c =
      some (usageCount (cohortTagged cash fees) c c) := by
  set tagged := cohortTagged cash fees with htagged
  -- extract a row carrying cohort c
  have hrow : ∃ m ∈ tagged, m.cohort = some c := by
    unfold usageRows at hc
    rw [List.mem_dedup, List.mem_filterMap] at hc
    obtain ⟨m, hmp, hmc⟩ := hc
    unfold usageParticipants at hmp
    rw [List.mem_filter] at hmp
    exact ⟨m, hmp.1, hmc⟩
  obtain ⟨m, hm, hmc⟩ := hrow
  obtain ⟨u, -, hucoh, cr, hcr, hf, -⟩ := user_of_cohort hm hmc
  have hu : u ∈ usersOf cash := final_mem_usersOf hcr hf
  obtain ⟨md, hmd, hmdc, hmdy⟩ := @diag_row_exists cash fees _ _ hu hucoh
  obtain ⟨hpos, -, hcol⟩ := usage_pos_of_row hmd hmdc hmdy
  refine ⟨hpos, hcol, ?_⟩
  -- every positive column of row c is at month ≥ c
  have hlb : ∀ mo ∈ (usageCols tagged).filter (fun mo => 0 < usageCount tagged c mo),
      c ≤ mo := by
    intro mo hmo
    rw [List.mem_filter, decide_eq_true_eq] at hmo
    obtain ⟨m2, hm2, hm2c, hm2y⟩ := exists_row_of_usage_pos hmo.2
    obtain ⟨u2, -, hu2coh, cr2, hcr2, hf2, hcreated2⟩ := user_of_cohort hm2 hm2c
    unfold yearMonth at hm2y
    rcases hct : m2.cash_created_at with _ | t2
    · rw [hct] at hm2y; cases hm2y
    · rw [hct] at hm2y
      have hmo2 : monthOf t2 = mo := by simpa using hm2y
      have := userCohort_le hu2coh hcr2 hf2 (by rw [hcreated2, hct])
      omega
  have hmemf : c ∈ (usageCols tagged).filter (fun mo => 0 < usageCount tagged c mo) :=
    List.mem_filter.mpr ⟨hcol, by simp [hpos]⟩
  unfold firstNonZeroValue
  have : ((usageCols tagged).filter (fun mo => 0 < usageCount tagged c mo)).min? = some c :=
    natMin?_eq_some.mpr ⟨hmemf, hlb⟩
  rw [this]
  rfl

/-- C9: every cohort row present in the unfiltered usage matrix has a
strictly positive value in its own entry-month column (the cohort label
is the month of the first request of some user, and that first request
itself is counted there); consequently the normalization divisor used by
the source — the first non-zero value of the row — always coincides with
the entry-month value. -/
theorem usage_matrix_diagonal_positive (cash : List CashRow) (fees : List FeeRow)
    (c : Nat) (hc : c ∈ usageRows (cohortTagged cash fees)) :
    0 < usageCount (cohortTagged cash fees) c c ∧
    firstNonZeroValue (cohortTagged cash fees) c =
      some (usageCount (cohortTagged cash fees) c c) := by
  obtain ⟨h1, -, h3⟩ := usage_diag cash fees hc
  exact ⟨h1, h3⟩

/-- Witness for `usage_matrix_diagonal_positive` on the concrete example
data, at cohort 2020-01. -/
theorem usage_matrix_diagonal_positive_witness :
    0 < usageCount (cohortTagged exCash exFees) 202001 202001 ∧
    firstNonZeroValue (cohortTagged exCash exFees) 202001 =
      some (usageCount (cohortTagged exCash exFees) 202001 202001) :=
  usage_matrix_diagonal_positive exCash exFees 202001 (by decide)

/-- C1: each cell of a cohort row of the unfiltered retention matrix
equals the usage-matrix cell divided by the entry-month usage value of
that cohort and rounded to 3 decimals; the cell at month = cohort is
exactly 1 whenever the entry-month value is positive; and in a row whose
entry-month value is zero or absent every cell is 0 (never undefined). -/
theorem retention_row_normalization (cash : List CashRow) (fees : List FeeRow)
    (c mo : Nat) (hc : c ∈ usageRows (cohortTagged cash fees))
    (hmo : mo ∈ usageCols (cohortTagged cash fees)) :
    retentionCell (cohortTagged cash fees) c mo =
      round3 ((usageCount (cohortTagged cash fees) c mo : ℚ) /
        (usageCount (cohortTagged cash fees) c c : ℚ)) ∧
    (0 < usageCount (cohortTagged cash fees) c c →
      retentionCell (cohortTagged cash fees) c c = 1) ∧
    (usageCount (cohortTagged cash fees) c c = 0 →
      retentionCell (cohortTagged cash fees) c mo = 0) := by
  obtain ⟨hpos, -, hfirst⟩ := usage_diag cash fees hc
  have hne : usageCount (cohortTagged cash fees) c c ≠ 0 := Nat.pos_iff_ne_zero.mp hpos
  have hcell : ∀ mo' : Nat, retentionCell (cohortTagged cash fees) c mo' =
      round3 ((usageCount (cohortTagged cash fees) c mo' : ℚ) /
        (usageCount (cohortTagged cash fees) c c : ℚ)) := by
    intro mo'
    unfold retentionCell
    rw [hfirst]
    simp [hne]
  refine ⟨hcell mo, ?_, ?_⟩
  · intro _
    rw [hcell c]
    have hneq : ((usageCount (cohortTagged cash fees) c c : ℚ)) ≠ 0 := by
      exact_mod_cast hne
    rw [div_self hneq]
    unfold round3 roundTo
    norm_num
  · intro h0
    exact absurd h0 hne

/-- Witness for `retention_row_normalization` on the concrete example
data, at cohort 2020-01 and activity month 2020-03 (retention 1.0, as in
the spec scenario). -/
theorem retention_row_normalization_witness :
    retentionCell (cohortTagged exCash exFees) 202001 202003 =
      round3 ((usageCount (cohortTagged exCash exFees) 202001 202003 : ℚ) /
        (usageCount (cohortTagged exCash exFees) 202001 202001 : ℚ)) ∧
    retentionCell (cohortTagged exCash exFees) 202001 202001 = 1 :=
  ⟨(retention_row_normalization exCash exFees 202001 202003 (by decide) (by decide)).1,
   (retention_row_normalization exCash exFees 202001 202003 (by decide) (by decide)).2.1
     (by decide)⟩

/-! ## Metrics Engine: incident rate (`3_cohort_analysis_metrics.py` In[17]) -/

/-- The cohort groups of the incident-rate groupby: the distinct
non-null cohort labels of the tagged table. -/
def incidentCohorts (tagged : List MergedRow) : List Nat :=
  (tagged.filterMap (·.cohort)).dedup

/-- `total_requests`: the number of rows of the tagged table in one
cohort group. -/
def totalRequests (tagged : List MergedRow) (c : Nat) : Nat :=
  (tagged.filter (fun m => m.cohort = some c)).length

/-- `incident_requests`: the rows flagged incident (the EDA script sets
`incident_flag` to incident exactly when `recovery_status` is non-null)
in one cohort group. -/
def incidentRequests (tagged : List MergedRow) (c : Nat) : Nat :=
  (tagged.filter (fun m => m.recovery_status.isSome ∧ m.cohort = some c)).length

/-- `incident_rate` per cohort, rounded to 4 decimals. -/
def incidentRate (tagged : List MergedRow) (c : Nat) : ℚ :=
  roundTo 4 ((incidentRequests tagged c : ℚ) / (totalRequests tagged c : ℚ))

lemma sum_map_add_nat (g h : Nat → Nat) (ms : List Nat) :
    (ms.map (fun mo => g mo + h mo)).sum = (ms.map g).sum + (ms.map h).sum := by
  induction ms with
  | nil => simp
  | cons m rest ih =>
    simp only [List.map_cons, List.sum_cons, ih]
    omega

lemma sum_indicator_eq_one {α : Type} (f : α → Option Nat) (a : α) {ms : List Nat}
    (hnd : ms.Nodup) {mo0 : Nat} (hmo : mo0 ∈ ms) (hf : f a = some mo0) :
    (ms.map (fun mo => if f a = some mo then 1 else 0)).sum = 1 := by
  induction ms with
  | nil => cases hmo
  | cons m rest ih =>
    rw [List.map_cons, List.sum_cons]
    rcases List.mem_cons.mp hmo with h | h
    · subst h
      rw [if_pos hf]
      have hzero : (rest.map (fun mo => if f a = some mo then 1 else 0)).sum = 0 := by
        apply List.sum_eq_zero
        intro x hx
        rw [List.mem_map] at hx
        obtain ⟨mo, hmo2, hx⟩ := hx
        have hne : f a ≠ some mo := by
          rw [hf]
          intro hcontra
          injection hcontra with hc
          subst hc
          exact (List.nodup_cons.mp hnd).1 hmo2
        rw [if_neg hne] at hx
        exact hx.symm
      omega
    · have hne : f a ≠ some m := by
        rw [hf]
        intro hcontra
        injection hcontra with hc
        subst hc
        exact (List.nodup_cons.mp hnd).1 h
      rw [if_neg hne]
      have := ih (List.nodup_cons.mp hnd).2 h
      omega

lemma sum_filter_lengths {α : Type} {ms : List Nat} (hnd : ms.Nodup)
    (l : List α) (f : α → Option Nat)
    (hmem : ∀ a ∈ l, ∃ mo ∈ ms, f a = some mo) :
    (ms.map (fun mo => (l.filter (fun a => f a = some mo)).length)).sum = l.length := by
  induction l with
  | nil =>
    apply List.sum_eq_zero
    intro x hx
    rw [List.mem_map] at hx
    obtain ⟨mo, -, hx⟩ := hx
    simpa using hx.symm
  | cons a tl ih =>
    have hpoint : ∀ mo : Nat, ((a :: tl).filter (fun b => f b = some mo)).length =
        (if f a = some mo then 1 else 0) + ((tl.filter (fun b => f b = some mo)).length) := by
      intro mo
      by_cases h : f a = some mo <;> simp [List.filter_cons, h] <;> omega
    have hmap : (ms.map (fun mo => ((a :: tl).filter (fun b => f b = some mo)).length)) =
        ms.map (fun mo => (if f a = some mo then 1 else 0) +
          ((tl.filter (fun b => f b = some mo)).length)) :=
      List.map_congr_left (fun mo _ => hpoint mo)
    rw [hmap, sum_map_add_nat]
    obtain ⟨mo0, hmo0, hf0⟩ := hmem a (by simp)
    rw [sum_indicator_eq_one f a hnd hmo0 hf0,
      ih (fun b hb => hmem b (by simp [hb])), List.length_cons]
    omega

/-- C10: for every cohort of the incident-rate table, the sum over all
activity months of the usage-matrix row of that cohort equals the
`total_requests` denominator used by the incident-rate table, provided
every row of the cohort-tagged table has a non-null activity month. -/
theorem usage_row_sum_eq_total_requests (cash : List CashRow) (fees : List FeeRow)
    (h : ∀ m ∈ cohortTagged cash fees, (yearMonth m).isSome)
    (c : Nat) (hc : c ∈ incidentCohorts (cohortTagged cash fees)) :
    ((usageCols (cohortTagged cash fees)).map
        (fun mo => usageCount (cohortTagged cash fees) c mo)).sum =
      totalRequests (cohortTagged cash fees) c := by
  set tagged := cohortTagged cash fees with htagged
  have hsplit : ∀ mo : Nat, usageCount tagged c mo =
      ((tagged.filter (fun m => m.cohort = some c)).filter
        (fun m => yearMonth m = some mo)).length := by
    intro mo
    unfold usageCount
    rw [List.filter_filter]
    congr 1
    apply List.filter_congr
    intro m _
    by_cases h1 : m.cohort = some c <;> by_cases h2 : yearMonth m = some mo <;>
      simp [h1, h2]
  have hmap : (usageCols tagged).map (fun mo => usageCount tagged c mo) =
      (usageCols tagged).map (fun mo =>
        ((tagged.filter (fun m => m.cohort = some c)).filter
          (fun m => yearMonth m = some mo)).length) :=
    List.map_congr_left (fun mo _ => hsplit mo)
  rw [hmap]
  exact sum_filter_lengths (List.nodup_dedup _) _ yearMonth
    (by
      intro m hm
      rw [List.mem_filter, decide_eq_true_eq] at hm
      obtain ⟨hmem, hcoh⟩ := hm
      rcases hy : yearMonth m with _ | mo
      · have := h m hmem
        rw [hy] at this
        cases this
      · refine ⟨mo, ?_, rfl⟩
        have hpart : m ∈ usageParticipants tagged := by
          unfold usageParticipants
          rw [List.mem_filter]
          refine ⟨hmem, ?_⟩
          simp [hcoh, hy]
        rw [List.mem_dedup]
        exact List.mem_filterMap.mpr ⟨m, hpart, hy⟩)

/-- Witness for `usage_row_sum_eq_total_requests` on the concrete
example data, at cohort 2020-01. -/
theorem usage_row_sum_eq_total_requests_witness :
    ((usageCols (cohortTagged exCash exFees)).map
        (fun mo => usageCount (cohortTagged exCash exFees) 202001 mo)).sum =
      totalRequests (cohortTagged exCash exFees) 202001 :=
  usage_row_sum_eq_total_requests exCash exFees (by decide) 202001 (by decide)

/-! ## Metrics Engine: revenue and cumulative revenue
(`3_cohort_analysis_metrics.py` In[19], In[21]) -/

/-- In[19]: the transaction rows whose fee status is accepted. -/
def acceptedRows (tagged : List MergedRow) : List MergedRow :=
  tagged.filter (fun m => m.fee_status = some "accepted")

/-- `cohort_revenue`: the sum of `total_amount` over accepted rows of one
cohort (the pandas sum skips null values). -/
def cohortRevenue (tagged : List MergedRow) (c : Nat) : ℚ :=
  (((acceptedRows tagged).filter (fun m => m.cohort = some c)).filterMap
    (·.total_amount)).sum

/-- The cohort column of the revenue table: the distinct non-null
cohorts of the accepted rows, ordered ascending (the groupby sorts its
keys and the table is then sorted by `cohort_year_month` again). -/
def revenueCohorts (tagged : List MergedRow) : List Nat :=
  (((acceptedRows tagged).filterMap (·.cohort)).dedup).insertionSort (· ≤ ·)

/-- The `cohort_revenue` column, in the order of the sorted table. -/
def revenueList (tagged : List MergedRow) : List ℚ :=
  (revenueCohorts tagged).map (cohortRevenue tagged)

/-- Running sum with accumulator (`cumsum`). -/
def cumsum : ℚ → List ℚ → List ℚ
  | _, [] => []
  | acc, x :: xs => (acc + x) :: cumsum (acc + x) xs

/-- In[21]: the `cumulative_revenue` column. -/
def cumulativeRevenue (tagged : List MergedRow) : List ℚ :=
  cumsum 0 (revenueList tagged)

lemma cumsum_getElem? (l : List ℚ) : ∀ (acc : ℚ) (i : Nat), i < l.length →
    (cumsum acc l)[i]? = some (acc + ((l.take (i + 1)).sum)) := by
  induction l with
  | nil =>
    intro acc i h
    simp at h
  | cons x xs ih =>
    intro acc i h
    cases i with
    | zero => simp [cumsum]
    | succ n =>
      have hstep : cumsum acc (x :: xs) = (acc + x) :: cumsum (acc + x) xs := rfl
      rw [hstep, List.getElem?_cons_succ, ih (acc + x) n (by simpa using h)]
      congr 1
      rw [List.take_succ_cons, List.sum_cons]
      ring

lemma cumsum_le {l : List ℚ} (hnn : ∀ x ∈ l, 0 ≤ x) :
    ∀ acc : ℚ, ∀ y ∈ cumsum acc l, acc ≤ y := by
  induction l with
  | nil =>
    intro acc y hy
    simp [cumsum] at hy
  | cons x xs ih =>
    intro acc y hy
    rcases List.mem_cons.mp hy with h | h
    · subst h
      have := hnn x (by simp)
      linarith
    · have hx : 0 ≤ x := hnn x (by simp)
      have := ih (fun z hz => hnn z (by simp [hz])) (acc + x) y h
      linarith

lemma cumsum_sorted {l : List ℚ} (hnn : ∀ x ∈ l, 0 ≤ x) :
    ∀ acc : ℚ, List.Sorted (· ≤ ·) (cumsum acc l) := by
  induction l with
  | nil =>
    intro acc
    simp [cumsum]
  | cons x xs ih =>
    intro acc
    show List.Sorted (· ≤ ·) ((acc + x) :: cumsum (acc + x) xs)
    rw [List.sorted_cons]
    exact ⟨fun b hb => cumsum_le (fun z hz => hnn z (by simp [hz])) (acc + x) b hb,
      ih (fun z hz => hnn z (by simp [hz])) (acc + x)⟩

/-- C7: the cumulative-revenue column is the running prefix sum of
per-cohort revenue over cohorts sorted ascending, and it is
non-decreasing because each cohort revenue is a sum of positive
accepted-fee amounts and hence non-negative.  (The positivity of the fee
amounts is the data-model invariant, taken as a hypothesis: the source
checks it but does not enforce it.) -/
theorem cumulative_revenue_prefix_sum (tagged : List MergedRow) :
    List.Sorted (· ≤ ·) (revenueCohorts tagged) ∧
    (∀ i : Nat, i < (revenueList tagged).length →
      (cumulativeRevenue tagged)[i]? = some (((revenueList tagged).take (i + 1)).sum)) ∧
    ((∀ m ∈ acceptedRows tagged, 0 < m.total_amount.getD 1) →
      (∀ c : Nat, 0 ≤ cohortRevenue tagged c) ∧
      List.Sorted (· ≤ ·) (cumulativeRevenue tagged)) := by
  refine ⟨?_, ?_, ?_⟩
  · exact List.sorted_insertionSort (· ≤ ·) _
  · intro i h
    have := cumsum_getElem? (revenueList tagged) 0 i h
    simpa using this
  · intro hpos
    have hrev : ∀ c : Nat, 0 ≤ cohortRevenue tagged c := by
      intro c
      apply List.sum_nonneg
      intro q hq
      rw [List.mem_filterMap] at hq
      obtain ⟨m, hm, hqm⟩ := hq
      rw [List.mem_filter] at hm
      have := hpos m hm.1
      rw [hqm] at this
      simpa using le_of_lt this
    refine ⟨hrev, ?_⟩
    apply cumsum_sorted
    intro x hx
    unfold revenueList at hx
    rw [List.mem_map] at hx
    obtain ⟨c, -, hcx⟩ := hx
    rw [← hcx]
    exact hrev c

/-- Witness for `cumulative_revenue_prefix_sum` on the concrete example
data (all amounts positive there). -/
theorem cumulative_revenue_prefix_sum_witness :
    (∀ c : Nat, 0 ≤ cohortRevenue (cohortTagged exCash exFees) c) ∧
    List.Sorted (· ≤ ·) (cumulativeRevenue (cohortTagged exCash exFees)) :=
  (cumulative_revenue_prefix_sum (cohortTagged exCash exFees)).2.2 (by decide)

/-! ## Metrics Engine: ARPU and CLV
(`3_cohort_analysis_metrics.py` In[15], In[22], In[23]) -/

/-- `user_count` per cohort: the number of rows of `user_first_request`
(one per distinct user) in one cohort group. -/
def cohortUserCount (cash : List CashRow) (c : Nat) : Nat :=
  ((usersOf cash).filter (fun u => userCohort cash u = some c)).length

/-- The left-merge lookup of the `user_count` column onto the revenue
table: a cohort group exists in the per-cohort user counts iff at least
one user belongs to it. -/
def userCountLookup (cash : List CashRow) (c : Nat) : Option Nat :=
  if 0 < cohortUserCount cash c then some (cohortUserCount cash c) else none

/-- In[22]: the `arpu` column, `(cohort_revenue / user_count).round(2)`
(null when the user-count merge found no group). -/
def arpuEntry (cash : List CashRow) (tagged : List MergedRow) (c : Nat) : Option ℚ :=
  (userCountLookup cash c).map (fun n => round2 (cohortRevenue tagged c / (n : ℚ)))

/-- The two partial boundary months excluded by the source
(November 2019 and November 2020, hardcoded in the scripts). -/
def boundaryMonths : List Nat := [201911, 202011]

/-- In[15]: the row index of the filtered usage/retention matrix (the
partial months are dropped). -/
def filteredUsageRows (tagged : List MergedRow) : List Nat :=
  (usageRows tagged).filter (fun c => decide (c ∉ boundaryMonths))

/-- In[15]: the column index of the filtered usage/retention matrix. -/
def filteredUsageCols (tagged : List MergedRow) : List Nat :=
  (usageCols tagged).filter (fun mo => decide (mo ∉ boundaryMonths))

/-- In[15]: a cell of the filtered retention matrix.  Each surviving row
is divided by its own diagonal entry (the source takes `row.loc[idx]`,
guarded by the diagonal column existing in the filtered matrix and the
value being positive; otherwise the row is set to 0.0). -/
def filteredRetentionCell (tagged : List MergedRow) (c mo : Nat) : ℚ :=
  if c ∈ filteredUsageCols tagged ∧ 0 < usageCount tagged c c then
    round3 ((usageCount tagged c mo : ℚ) / (usageCount tagged c c : ℚ))
  else 0

/-- In[23]: the left-merge lookup of `avg_retention_months` — the row
sum of the 0/1 indicator matrix `retention_binary` for the cohort — onto
the ARPU table; null when the cohort is not a row of the filtered
retention matrix. -/
def retentionDurationLookup (tagged : List MergedRow) (c : Nat) : Option Nat :=
  if c ∈ filteredUsageRows tagged then
    some (((filteredUsageCols tagged).map
      (fun mo => if 0 < filteredRetentionCell tagged c mo then 1 else 0)).sum)
  else none

/-- In[23]: the cohort column of the CLV output table: the revenue-table
cohorts with the partial boundary months removed. -/
def clvCohorts (tagged : List MergedRow) : List Nat :=
  (revenueCohorts tagged).filter (fun c => decide (c ∉ boundaryMonths))

/-- In[23]: the `clv` column, `(arpu * avg_retention_months).round(2)`
(null when either merge input is null). -/
def clvEntry (cash : List CashRow) (tagged : List MergedRow) (c : Nat) : Option ℚ :=
  match arpuEntry cash tagged c, retentionDurationLookup tagged c with
  | some a, some n => some (round2 (a * (n : ℚ)))
  | _, _ => none

lemma sum_indicator_eq_filter_length (p : Nat → Prop) [DecidablePred p]
    (ms : List Nat) :
    (ms.map (fun mo => if p mo then 1 else 0)).sum =
      (ms.filter (fun mo => p mo)).length := by
  induction ms with
  | nil => simp
  | cons m rest ih =>
    by_cases h : p m <;>
      simp [List.filter_cons, h, ih, Nat.add_comm]

/-- A cohort with revenue is a cohort of some user. -/
lemma revenue_cohort_has_user {cash : List CashRow} {fees : List FeeRow} {c : Nat}
    (hc : c ∈ revenueCohorts (cohortTagged cash fees)) :
    ∃ u ∈ usersOf cash, userCohort cash u = some c := by
  unfold revenueCohorts at hc
  rw [List.Perm.mem_iff (List.perm_insertionSort _ _), List.mem_dedup,
    List.mem_filterMap] at hc
  obtain ⟨m, hm, hmc⟩ := hc
  have hm2 : m ∈ cohortTagged cash fees := by
    unfold acceptedRows at hm
    exact (List.mem_filter.mp hm).1
  obtain ⟨u, -, hcoh, cr, hcr, hf, -⟩ := user_of_cohort hm2 hmc
  exact ⟨u, final_mem_usersOf hcr hf, hcoh⟩

/-- C8: for every non-partial cohort of the CLV table, CLV equals that
cohort ARPU (revenue divided by distinct user count, rounded to 2
decimals) times the number of strictly-positive columns in that cohort
row of the filtered retention matrix, rounded to 2 decimals; and the
partial boundary cohorts are removed entirely from the CLV table, not
zero-filled. -/
theorem clv_formula_and_boundary_exclusion (cash : List CashRow) (fees : List FeeRow) :
    (∀ c ∈ clvCohorts (cohortTagged cash fees),
      0 < cohortUserCount cash c ∧
      arpuEntry cash (cohortTagged cash fees) c =
        some (round2 (cohortRevenue (cohortTagged cash fees) c /
          (cohortUserCount cash c : ℚ))) ∧
      clvEntry cash (cohortTagged cash fees) c =
        some (round2 (round2 (cohortRevenue (cohortTagged cash fees) c /
            (cohortUserCount cash c : ℚ)) *
          (((filteredUsageCols (cohortTagged cash fees)).filter
              (fun mo => 0 < filteredRetentionCell (cohortTagged cash fees) c mo)).length
            : ℚ)))) ∧
    (∀ c : Nat, c ∈ clvCohorts (cohortTagged cash fees) ↔
      (c ∈ revenueCohorts (cohortTagged cash fees) ∧ c ∉ boundaryMonths)) := by
  set tagged := cohortTagged cash fees with htagged
  have hmemiff : ∀ c : Nat, c ∈ clvCohorts tagged ↔
      (c ∈ revenueCohorts tagged ∧ c ∉ boundaryMonths) := by
    intro c
    unfold clvCohorts
    rw [List.mem_filter]
    simp
  refine ⟨?_, hmemiff⟩
  intro c hc
  obtain ⟨hrev, hnb⟩ := (hmemiff c).mp hc
  obtain ⟨u, hu, hcoh⟩ := revenue_cohort_has_user hrev
  have hucount : 0 < cohortUserCount cash c := by
    unfold cohortUserCount
    rw [List.length_pos]
    intro hnil
    have : u ∈ (usersOf cash).filter (fun u => userCohort cash u = some c) :=
      List.mem_filter.mpr ⟨hu, by simp [hcoh]⟩
    rw [hnil] at this
    cases this
  have harpu : arpuEntry cash tagged c =
      some (round2 (cohortRevenue tagged c / (cohortUserCount cash c : ℚ))) := by
    unfold arpuEntry userCountLookup
    rw [if_pos hucount]
    rfl
  refine ⟨hucount, harpu, ?_⟩
  obtain ⟨md, hmd, hmdc, hmdy⟩ := @diag_row_exists cash fees _ _ hu hcoh
  obtain ⟨-, hrow, -⟩ := usage_pos_of_row hmd hmdc hmdy
  have hfrow : c ∈ filteredUsageRows tagged := by
    unfold filteredUsageRows
    rw [List.mem_filter]
    exact ⟨hrow, by simpa using hnb⟩
  have hdur : retentionDurationLookup tagged c =
      some (((filteredUsageCols tagged).filter
        (fun mo => 0 < filteredRetentionCell tagged c mo)).length) := by
    unfold retentionDurationLookup
    rw [if_pos hfrow,
      sum_indicator_eq_filter_length (fun mo => 0 < filteredRetentionCell tagged c mo)]
  unfold clvEntry
  rw [harpu, hdur]

/-- Witness for `clv_formula_and_boundary_exclusion` on the concrete
example data, at cohort 2020-01 (the only cohort with revenue there). -/
theorem clv_formula_and_boundary_exclusion_witness :
    0 < cohortUserCount exCash 202001 ∧
    clvEntry exCash (cohortTagged exCash exFees) 202001 =
      some (round2 (round2 (cohortRevenue (cohortTagged exCash exFees) 202001 /
          (cohortUserCount exCash 202001 : ℚ)) *
        (((filteredUsageCols (cohortTagged exCash exFees)).filter
            (fun mo => 0 < filteredRetentionCell (cohortTagged exCash exFees) 202001 mo)).length
          : ℚ))) :=
  ⟨((clv_formula_and_boundary_exclusion exCash exFees).1 202001 (by decide)).1,
   ((clv_formula_and_boundary_exclusion exCash exFees).1 202001 (by decide)).2.2⟩

/-! ## Error-handling behaviour of the cleaning checks (C3, C4) -/

/-- Counterexample to C3: on a table with one row whose identity columns
are both null, the missing-final-id count is 1 (not 0), yet cohort
assignment is still reached and produces its output table — the source
only prints the count (In[21] of the cleaning script, In[9] of the
metrics script) and never raises. -/
theorem missing_final_id_counterexample :
    missingFinalIds [⟨9, none, none, some 100, some 20200115, none⟩] = 1 ∧
    cohortTagged [⟨9, none, none, some 100, some 20200115, none⟩] [] =
      [⟨9, none, some 20200115, none, none, none, none, none⟩] := by
  constructor
  · decide
  · decide

/-- C3 amended: the unification check computes the count of rows with a
null `final_user_id` and the pipeline reports it but continues — cohort
assignment still processes every joined row, and a row whose
`final_user_id` is null simply receives a null cohort (it is dropped by
the later cohort groupbys rather than halting the pipeline). -/
theorem missing_final_id_reported_not_halting (cash : List CashRow) (fees : List FeeRow) :
    (cohortTagged cash fees).length = (leftJoin cash fees).length ∧
    (∀ m ∈ cohortTagged cash fees, m.final_user_id = none → m.cohort = none) ∧
    (0 < missingFinalIds cash →
      ∃ m ∈ cohortTagged cash fees, m.final_user_id = none ∧ m.cohort = none) := by
  have hnull : ∀ m ∈ cohortTagged cash fees, m.final_user_id = none → m.cohort = none := by
    intro m hm hfid
    unfold cohortTagged at hm
    rw [List.mem_map] at hm
    obtain ⟨m0, -, hassign⟩ := hm
    have hfid0 : m0.final_user_id = none := by
      rw [← hassign] at hfid
      exact hfid
    rw [← hassign]
    show (match m0.final_user_id with
          | none => none
          | some u => lookupCohort cash u) = none
    rw [hfid0]
  refine ⟨by unfold cohortTagged; rw [List.length_map], hnull, ?_⟩
  intro hmiss
  unfold missingFinalIds at hmiss
  rw [List.length_pos] at hmiss
  obtain ⟨r, hr⟩ := List.exists_mem_of_ne_nil _ hmiss
  rw [List.mem_filter] at hr
  obtain ⟨hrmem, hrnull⟩ := hr
  have hfin : finalOf r = none := by
    rcases h : finalOf r with _ | u
    · rfl
    · rw [h] at hrnull
      simp at hrnull
  obtain ⟨m0, hm0, -, hfid, -⟩ := mem_leftJoin_of_mem_cash fees hrmem
  refine ⟨assignCohort cash m0, ?_, ?_, ?_⟩
  · unfold cohortTagged
    exact List.mem_map.mpr ⟨m0, hm0, rfl⟩
  · show m0.final_user_id = none
    rw [hfid, hfin]
  · apply hnull
    · unfold cohortTagged
      exact List.mem_map.mpr ⟨m0, hm0, rfl⟩
    · show m0.final_user_id = none
      rw [hfid, hfin]

/-- Witness for `missing_final_id_reported_not_halting` on a concrete
table containing an unidentifiable row. -/
theorem missing_final_id_reported_not_halting_witness :
    ∃ m ∈ cohortTagged [⟨8, none, none, some 25, some 20200220, none⟩] [],
      m.final_user_id = none ∧ m.cohort = none :=
  (missing_final_id_reported_not_halting
    [⟨8, none, none, some 25, some 20200220, none⟩] []).2.2 (by decide)

/-- Counterexample to C4: a fee row with a non-null but unmatched
`cash_request_id` (999, against an empty cash table) survives cleaning —
the unmatched-id check reports it, but the cleaned fee table retains it,
so not every retained fee references an existing cash request. -/
theorem unmatched_fee_retained_counterexample :
    cleanFees [⟨2, some 999, some 5, some "accepted"⟩] =
      [⟨2, some 999, some 5, some "accepted"⟩] ∧
    unmatchedFees [] [⟨2, some 999, some 5, some "accepted"⟩] =
      [⟨2, some 999, some 5, some "accepted"⟩] ∧
    ((([] : List CashRow).map (·.id)).contains 999) = false := by
  refine ⟨by decide, by decide, by decide⟩

/-- C4 amended: cleaning drops exactly the fee rows with a null
`cash_request_id`; a fee row with a non-null but unmatched foreign key
is reported by the unmatched-id check yet retained in the cleaned table,
and such a fee is excluded from the joined (metrics) stage because the
left join only ever attaches a fee to the cash request whose id equals
its `cash_request_id`. -/
theorem fee_cleaning_null_fk_only (cash : List CashRow) (fees : List FeeRow) :
    (∀ f ∈ cleanFees fees, f.cash_request_id.isSome) ∧
    (∀ f ∈ fees, f.cash_request_id.isSome → f ∈ cleanFees fees) ∧
    (∀ f ∈ fees, ∀ cid : Nat, f.cash_request_id = some cid →
      cid ∉ cash.map (·.id) → f ∈ unmatchedFees cash fees) ∧
    (∀ m ∈ leftJoin cash (cleanFees fees), ∀ fid : Nat, m.fee_id = some fid →
      m.cash_request_id ∈ cash.map (·.id) ∧
      ∃ f ∈ cleanFees fees, f.fee_id = fid ∧
        f.cash_request_id = some m.cash_request_id) := by
  refine ⟨?_, ?_, ?_, ?_⟩
  · intro f hf
    unfold cleanFees at hf
    rw [List.mem_filter] at hf
    simpa using hf.2
  · intro f hf hsome
    unfold cleanFees
    rw [List.mem_filter]
    exact ⟨hf, by simpa using hsome⟩
  · intro f hf cid hcid hnot
    unfold unmatchedFees
    rw [List.mem_filter]
    refine ⟨hf, ?_⟩
    rw [hcid]
    simpa using hnot
  · intro m hm fid hfid
    unfold leftJoin at hm
    rw [List.mem_flatMap] at hm
    obtain ⟨c, hc, hjoin⟩ := hm
    unfold joinRow at hjoin
    split at hjoin
    · rw [List.mem_singleton] at hjoin
      subst hjoin
      simp [mkMerged] at hfid
    · rw [List.mem_map] at hjoin
      obtain ⟨f, hfhits, hf⟩ := hjoin
      unfold feeHits at hfhits
      rw [List.mem_filter, decide_eq_true_eq] at hfhits
      obtain ⟨hfclean, hfcid⟩ := hfhits
      subst hf
      refine ⟨List.mem_map.mpr ⟨c, hc, rfl⟩, f, hfclean, ?_, ?_⟩
      · have hfe : (mkMerged c (some f)).fee_id = some f.fee_id := rfl
        rw [hfe] at hfid
        exact Option.some_inj.mp hfid
      · exact hfcid

/-- Witness for `fee_cleaning_null_fk_only`: the concrete unmatched fee
row is reported by the unmatched-id check. -/
theorem fee_cleaning_null_fk_only_witness :
    (⟨2, some 999, some 5, some "accepted"⟩ : FeeRow) ∈
      unmatchedFees [] [⟨2, some 999, some 5, some "accepted"⟩] :=
  (fee_cleaning_null_fk_only [] [⟨2, some 999, some 5, some "accepted"⟩]).2.2.1
    _ (by decide) 999 rfl (by decide)
